import Mathlib

set_option maxRecDepth 8000

/-!
Verification of the subreddit discovery-and-harvest engine (`spider.py`)
and its downstream flattening stage (`preprocess.py`).

The Python source is shallowly embedded: strings are Lean `String`s
manipulated as their character lists (Python `str` indexes code points, as
`List Char` does), Python `set`s of strings become `List String`/`Finset
String` with explicit deduplication, and the network is abstracted into
oracle parameters (the validator's fetched data, the harvester's per-attempt
outcome schedule, the driver's validate/links oracles).
-/

/-- Python `str.lower()` restricted to the ASCII case mapping, written over
the character list so the kernel can evaluate it. (`spider.py` lowercases
only ASCII subreddit names and post text in the places modelled here.) -/
def lowerString (s : String) : String :=
  String.mk (s.toList.map Char.toLower)

/-- Python `link.strip().lower()` from `harvest_and_expand`: trim whitespace
at both ends, then lowercase. -/
def normalizeId (s : String) : String :=
  String.mk ((((s.toList.dropWhile Char.isWhitespace).reverse.dropWhile
    Char.isWhitespace).reverse).map Char.toLower)

/-- Does `pre` start `l`? (Helper for the substring test.) -/
def startsWithChars : List Char → List Char → Bool
  | [], _ => true
  | _ :: _, [] => false
  | a :: as, b :: bs => a == b && startsWithChars as bs

/-- Does `needle` occur contiguously somewhere in `hay`? -/
def occursChars : List Char → List Char → Bool
  | needle, [] => needle.isEmpty
  | needle, b :: bs => startsWithChars needle (b :: bs) || occursChars needle bs

/-- Python `needle in text` on strings: substring containment. -/
def occursIn (needle text : String) : Bool :=
  occursChars needle.toList text.toList

/-- Character class `[a-zA-Z0-9_]` of the link regex `r/([a-zA-Z0-9_]+)`. -/
def isWordChar (c : Char) : Bool :=
  c.isAlphanum || c == '_'

/-- One left-to-right scan of `re.findall(r"r/([a-zA-Z0-9_]+)", text)`:
at each position try to match the literal prefix `r/` followed by a maximal
nonempty run of word characters; on success capture the run and resume after
it, otherwise advance one character. The `fuel` argument (instantiated with
the text length, an upper bound on the number of scan steps, each of which
consumes at least one character) keeps the recursion structural. -/
def findallAux : Nat → List Char → List String
  | 0, _ => []
  | _ + 1, [] => []
  | fuel + 1, c1 :: rest =>
    match c1, rest with
    | 'r', '/' :: rest2 =>
      let w := rest2.takeWhile isWordChar
      if w.isEmpty then findallAux fuel rest
      else String.mk w :: findallAux fuel (rest2.dropWhile isWordChar)
    | _, _ => findallAux fuel rest

/-- `self.link_pattern.findall(text)` with `link_pattern =
re.compile(r"r/([a-zA-Z0-9_]+)")`: the list of captured identifiers in
match order. -/
def link_pattern_findall (text : String) : List String :=
  findallAux text.toList.length text.toList

/-- The pure link extractor: matches are accumulated into a Python `set`
(`new_links_found.update(...)`), so the result is the set of captured
identifiers, case preserved. -/
def extract (text : String) : Finset String :=
  (link_pattern_findall text).toFinset

/-- C8: `extract` is a pure function returning the unique set of identifiers
matching the fixed prefix `r/` followed by one or more alphanumeric or
underscore characters, anywhere in the text, case preserved; on
`"check r/FooBar and /r/baz_123"` it returns exactly the set containing
`"FooBar"` and `"baz_123"` (the `/r/` form matches through its embedded
`r/`), and on `"no refs here"` it returns the empty set. -/
theorem c8_extract_links :
    link_pattern_findall "check r/FooBar and /r/baz_123" = ["FooBar", "baz_123"] ∧
    extract "check r/FooBar and /r/baz_123" = {"FooBar", "baz_123"} ∧
    extract "no refs here" = (∅ : Finset String) := by
  refine ⟨by decide, by decide, by decide⟩

/-- Positive (laptop-indicator) keywords, in the order of the Python set
literal in `spider.py`. Python iterates a `set` in an unspecified,
hash-dependent order, so the scoring loop below is parameterized by an
enumeration order; this list is the literal source order, used as the
canonical enumeration. -/
def LAPTOP_KEYWORDS : List String :=
  ["battery", "hinge", "screen", "keyboard", "touchpad", "trackpad",
   "thermal", "paste", "laptops", "wattage", "charger", "lid", "ips",
   "oled", "backlight", "gaming laptop", "notebook", "mobility",
   "portability"]

/-- Negative (desktop/console-indicator) keywords from `spider.py`. -/
def DESKTOP_KEYWORDS : List String :=
  ["desktop", "tower", "monitor", "buildapc", "atx", "itx", "motherboard",
   "ps5", "xbox", "console", "controller", "tv", "cabinet", "water cooling",
   "desk setup", "battlestation", "mousepad"]

/-- `(post.title + " " + (post.selftext or "")).lower()` from
`validate_relevance`. -/
def postText (title selftext : String) : String :=
  lowerString (title ++ " " ++ selftext)

/-- The per-post positive-keyword loop of `validate_relevance`: iterate the
positive keywords in enumeration order `order`; at the first keyword
occurring in `text`, add 2 extra if that keyword is `"laptop"` or
`"laptops"`, add 1, and `break`. The returned value is the net change. -/
def posDelta (order : List String) (text : String) : Int :=
  match order.find? (fun w => occursIn w text) with
  | none => 0
  | some w => if w = "laptop" ∨ w = "laptops" then 3 else 1

/-- The per-post negative-keyword loop of `validate_relevance`: subtract 2
at the first negative keyword occurring in `text` and `break`; the value is
independent of the enumeration order. -/
def negDelta (text : String) : Int :=
  if DESKTOP_KEYWORDS.any (fun w => occursIn w text) then -2 else 0

/-- Modelled from the spec: the per-post positive increment as claim C4
words it — `+1` for any positive-keyword match, and an additional `+2`
exactly when the canonical target-item term ("laptop") is present in the
text, regardless of which keyword is checked first. Stated only to be
compared with `posDelta`, the increment the code computes. -/
def specPosDelta (text : String) : Int :=
  if LAPTOP_KEYWORDS.any (fun w => occursIn w text) then
    1 + (if occursIn "laptop" text then 2 else 0)
  else 0

/-- The description contribution in `validate_relevance`: `+5` if any
positive keyword occurs in the lowercased description+title, `-5` if any
negative keyword occurs. -/
def descDelta (descLower : String) : Int :=
  (if LAPTOP_KEYWORDS.any (fun w => occursIn w descLower) then 5 else 0) +
  (if DESKTOP_KEYWORDS.any (fun w => occursIn w descLower) then -5 else 0)

/-- The full relevance score of `validate_relevance`: description
contribution plus, per sampled post `(title, selftext)`, the positive and
negative per-post deltas. -/
def totalScore (order : List String) (publicDescription title : String)
    (posts : List (String × String)) : Int :=
  descDelta (lowerString (publicDescription ++ title)) +
  (posts.map (fun pr => posDelta order (postText pr.1 pr.2) +
    negDelta (postText pr.1 pr.2))).sum

/-- `validate_relevance`, with the network abstracted into its fetched data:
reject when the subscriber count is below 10000 (score never computed),
otherwise accept exactly when the score exceeds 5. -/
def validate_relevance (order : List String) (subscribers : Nat)
    (publicDescription title : String) (posts : List (String × String)) :
    Bool :=
  if subscribers < 10000 then false
  else decide (totalScore order publicDescription title posts > 5)

/-- C4 counterexample: for the sampled text "battery laptops" the canonical
term is present (both "laptop" and "laptops" occur), so the claim demands a
per-item increment of exactly 1 + 2 = 3; but the code breaks at the first
matching keyword of the enumeration — "battery" under the source-literal
order — and adds only 1. -/
theorem c4_counterexample :
    occursIn "laptop" "battery laptops" = true ∧
    occursIn "laptops" "battery laptops" = true ∧
    LAPTOP_KEYWORDS.any (fun w => occursIn w "battery laptops") = true ∧
    posDelta LAPTOP_KEYWORDS "battery laptops" = 1 ∧
    specPosDelta "battery laptops" = 3 ∧
    posDelta LAPTOP_KEYWORDS "battery laptops" ≠ specPosDelta "battery laptops" := by
  refine ⟨by decide, by decide, by decide, by decide, by decide, by decide⟩

/-- C4 amended: per sampled item the positive branch changes the score by
0, 1 or 3 — never more, so the positive increment is applied at most once
per item; it is 0 exactly when no positive keyword occurs; the extra +2
(total 3) can fire only when the first matching keyword in the set's
enumeration order is literally `"laptops"` (bare `"laptop"` is not a member
of the keyword set, so its branch is dead), hence a 3 implies `"laptops"`
occurs in the text, but `"laptops"` occurring does not force the bonus
(see the counterexample). The negative branch changes the score by 0 or
-2, exactly -2 when some negative keyword occurs, also at most once per
item. -/
theorem c4_amended :
    (∀ (order : List String) (text : String),
      posDelta order text = 0 ∨ posDelta order text = 1 ∨
        posDelta order text = 3) ∧
    (∀ (order : List String) (text : String),
      posDelta order text = 0 ↔ ∀ w ∈ order, occursIn w text = false) ∧
    (∀ (order : List String) (text : String), "laptop" ∉ order →
      posDelta order text = 3 → occursIn "laptops" text = true) ∧
    (∀ text : String, negDelta text = 0 ∨ negDelta text = -2) ∧
    (∀ text : String,
      negDelta text = -2 ↔
        DESKTOP_KEYWORDS.any (fun w => occursIn w text) = true) := by
  refine ⟨?_, ?_, ?_, ?_, ?_⟩
  · intro order text
    unfold posDelta
    cases h : order.find? (fun w => occursIn w text) with
    | none => exact Or.inl rfl
    | some w =>
      by_cases hw : w = "laptop" ∨ w = "laptops"
      · exact Or.inr (Or.inr (by simp [hw]))
      · exact Or.inr (Or.inl (by simp [hw]))
  · intro order text
    unfold posDelta
    cases h : order.find? (fun w => occursIn w text) with
    | none =>
      simp only [List.find?_eq_none] at h
      constructor
      · intro _ w hw
        simpa using h w hw
      · intro _
        rfl
    | some w =>
      have hmem := List.mem_of_find?_eq_some h
      have hocc : occursIn w text = true := by
        simpa using List.find?_some h
      constructor
      · intro hzero
        by_cases hw : w = "laptop" ∨ w = "laptops" <;> simp [hw] at hzero
      · intro hall
        have := hall w hmem
        rw [this] at hocc
        cases hocc
  · intro order text hnot h3
    unfold posDelta at h3
    cases h : order.find? (fun w => occursIn w text) with
    | none => rw [h] at h3; cases h3
    | some w =>
      rw [h] at h3
      have hmem := List.mem_of_find?_eq_some h
      have hocc : occursIn w text = true := by
        simpa using List.find?_some h
      by_cases hw : w = "laptop" ∨ w = "laptops"
      · cases hw with
        | inl hl => exact absurd (hl ▸ hmem) hnot
        | inr hl => exact hl ▸ hocc
      · simp [hw] at h3
  · intro text
    unfold negDelta
    by_cases h : DESKTOP_KEYWORDS.any (fun w => occursIn w text) = true
    · exact Or.inr (by simp [h])
    · exact Or.inl (by simp [h])
  · intro text
    unfold negDelta
    by_cases h : DESKTOP_KEYWORDS.any (fun w => occursIn w text) = true <;>
      simp [h]

/-- C4 amended, concrete witness: under the source-literal enumeration
(in which `"laptop"` does not appear as a member) the sampled text
"my laptops" has `"laptops"` as its first matching keyword, the per-item
positive increment is 3, and the theorem's implication then yields that
`"laptops"` indeed occurs in the text. -/
theorem c4_amended_witness :
    ("laptop" ∉ LAPTOP_KEYWORDS ∧
      posDelta LAPTOP_KEYWORDS "my laptops" = 3) ∧
    occursIn "laptops" "my laptops" = true :=
  ⟨⟨by decide, by decide⟩,
    c4_amended.2.2.1 LAPTOP_KEYWORDS "my laptops" (by decide) (by decide)⟩

/-- C6: with the subscriber minimum met (so that the score is computed at
all), validation accepts exactly when the computed score strictly exceeds
5; concretely, a description+title matching exactly the one positive
keyword "battery" and no negative keyword, with zero sampled items, scores
exactly 5 and is rejected, and adding one sampled item matching the
positive keyword "battery" yields score exactly 6 and acceptance. -/
theorem c6_acceptance_threshold :
    (∀ (order : List String) (extra : Nat)
      (publicDescription title : String) (posts : List (String × String)),
      (validate_relevance order (10000 + extra) publicDescription title
          posts = true) ↔
        5 < totalScore order publicDescription title posts) ∧
    totalScore LAPTOP_KEYWORDS "battery" "" [] = 5 ∧
    validate_relevance LAPTOP_KEYWORDS 10000 "battery" "" [] = false ∧
    totalScore LAPTOP_KEYWORDS "battery" "" [("battery", "")] = 6 ∧
    validate_relevance LAPTOP_KEYWORDS 10000 "battery" ""
      [("battery", "")] = true := by
  refine ⟨?_, by decide, by decide, by decide, by decide⟩
  intro order extra publicDescription title posts
  unfold validate_relevance
  have h : ¬ (10000 + extra < 10000) := by omega
  rw [if_neg h]
  exact ⟨of_decide_eq_true, decide_eq_true⟩

/-- The comment data `spider.py` reads from the API and stores
(`{"body": comment.body, "author": str(comment.author),
"score": comment.score}`). -/
structure CommentObj where
  body : String
  author : String
  score : Int
deriving DecidableEq, Repr

/-- One item (submission) as fetched by `harvest_and_expand`: its id,
title, body text (`selftext`), canonical url, and its top-level comments in
API order (after `replace_more(limit=0)` discarded the "load more"
placeholders). -/
structure Post where
  id : String
  title : String
  selftext : String
  url : String
  comments : List CommentObj
deriving DecidableEq, Repr

/-- The record `harvest_and_expand` writes for one post: one JSON object
per line with fields `id`, `title`, `body`, `url` and the list `comments`
nested inside it. -/
structure PostObj where
  id : String
  title : String
  body : String
  url : String
  comments : List CommentObj
deriving DecidableEq, Repr

/-- The top-level comment cap: `post.comments[:10]` in `spider.py`. -/
def COMMENT_CAP : Nat := 10

/-- Building the written record for one post: all fields copied, comments
truncated to the first `COMMENT_CAP` in API order. Every fetched post is
written, whatever its body. -/
def processPost (p : Post) : PostObj :=
  { id := p.id, title := p.title, body := p.selftext, url := p.url,
    comments := p.comments.take COMMENT_CAP }

/-- The links `harvest_and_expand` extracts from one post: from the body
only when `post.selftext` is truthy (nonempty), and from each of the first
`COMMENT_CAP` comments whose body is truthy. -/
def postLinks (p : Post) : List String :=
  (if p.selftext ≠ "" then link_pattern_findall p.selftext else []) ++
  (p.comments.take COMMENT_CAP).flatMap
    (fun c => if c.body ≠ "" then link_pattern_findall c.body else [])

/-- One attempt of the per-candidate fetch loop, as the retry wrapper sees
it: it either completes over all fetched posts, or raises a transient
network/server error after writing the records of the first `k` posts, or
raises some other error after writing the first `k`. -/
inductive Attempt where
  | ok (posts : List Post)
  | transientAfter (k : Nat) (posts : List Post)
  | fatalAfter (k : Nat) (posts : List Post)
deriving DecidableEq, Repr

/-- The outcome of `harvest_and_expand` for one candidate: the final
contents of its output file (each attempt reopens the file with mode "w",
truncating it), the returned success flag, the number of times the fixed
5-unit backoff `time.sleep(5)` ran, and the number of fetch attempts
started. -/
structure HarvestResult where
  file : List PostObj
  success : Bool
  backoffs : Nat
  attemptsMade : Nat
deriving DecidableEq, Repr

/-- The `while retries > 0` retry loop of `harvest_and_expand`. A completed
attempt breaks with success; a transient error decrements `retries`, sleeps
the backoff once and loops (the file keeping that attempt's partial
records until the next attempt truncates it); any other error returns
failure at once; `retries` hitting 0 returns failure with the last
attempt's partial records still in the file. -/
def harvestLoop : Nat → List Attempt → List PostObj → HarvestResult
  | 0, _, file => ⟨file, false, 0, 0⟩
  | _ + 1, [], file => ⟨file, false, 0, 0⟩
  | retries + 1, a :: rest, _ =>
    match a with
    | .ok ps => ⟨ps.map processPost, true, 0, 1⟩
    | .transientAfter k ps =>
      let res := harvestLoop retries rest ((ps.take k).map processPost)
      ⟨res.file, res.success, res.backoffs + 1, res.attemptsMade + 1⟩
    | .fatalAfter k ps => ⟨(ps.take k).map processPost, false, 0, 1⟩

/-- `harvest_and_expand`'s file/retry behaviour for one candidate, driven
by the schedule of attempt outcomes: `retries = 3`, file initially absent
(modelled empty). -/
def harvest_and_expand (sched : List Attempt) : HarvestResult :=
  harvestLoop 3 sched []

/-- Every run of the retry loop starts at most `retries` attempts. -/
theorem harvestLoop_attempts_le (sched : List Attempt) :
    ∀ (retries : Nat) (file : List PostObj),
      (harvestLoop retries sched file).attemptsMade ≤ retries := by
  induction sched with
  | nil =>
    intro retries file
    cases retries <;> simp [harvestLoop]
  | cons a rest ih =>
    intro retries file
    cases retries with
    | zero => simp [harvestLoop]
    | succ r =>
      cases a with
      | ok ps => simp [harvestLoop]
      | transientAfter k ps =>
        simp only [harvestLoop]
        exact Nat.add_le_add_right (ih r _) 1
      | fatalAfter k ps => simp [harvestLoop]

/-- C5: a harvest makes at most 3 fetch attempts; a non-transient error on
the first attempt ends the harvest immediately with `success = false`,
leaving the records written so far and invoking no backoff; when attempts
1 and 2 fail transiently and attempt 3 completes, the output file holds
exactly the records of the successful attempt (each attempt re-truncates
the file), the result is success, and the backoff ran exactly twice; and
three transient failures exhaust the retries and return `success = false`. -/
theorem c5_retry_policy :
    (∀ sched : List Attempt,
      (harvest_and_expand sched).attemptsMade ≤ 3) ∧
    (∀ (k : Nat) (ps : List Post) (rest : List Attempt),
      harvest_and_expand (.fatalAfter k ps :: rest) =
        ⟨(ps.take k).map processPost, false, 0, 1⟩) ∧
    (∀ (k1 k2 : Nat) (ps1 ps2 ps3 : List Post) (rest : List Attempt),
      harvest_and_expand
          (.transientAfter k1 ps1 :: .transientAfter k2 ps2 :: .ok ps3 ::
            rest) =
        ⟨ps3.map processPost, true, 2, 3⟩) ∧
    (∀ (k1 k2 k3 : Nat) (ps1 ps2 ps3 : List Post) (rest : List Attempt),
      harvest_and_expand
          (.transientAfter k1 ps1 :: .transientAfter k2 ps2 ::
            .transientAfter k3 ps3 :: rest) =
        ⟨(ps3.take k3).map processPost, false, 3, 3⟩) := by
  refine ⟨?_, ?_, ?_, ?_⟩
  · intro sched
    exact harvestLoop_attempts_le sched 3 []
  · intro k ps rest
    rfl
  · intro k1 k2 ps1 ps2 ps3 rest
    rfl
  · intro k1 k2 k3 ps1 ps2 ps3 rest
    rfl

/-- One flattened row emitted by `process_single_file` in `preprocess.py`. -/
structure ProcRecord where
  id : String
  type : String
  subreddit : String
  author : String
  score : Int
  original_text : String
  full_text_length : Nat
  processed_tokens : String
deriving DecidableEq, Repr

/-- The fixed automated-account exclusion list of `preprocess.py`
(`if comment.get('author') in ["AutoModerator"]: continue`). -/
def EXCLUDED_AUTHORS : List String := ["AutoModerator"]

/-- Python `" ".join(tokens)`. -/
def joinTokens : List String → String
  | [] => ""
  | [t] => t
  | t :: rest => t ++ " " ++ joinTokens rest

/-- Python `text[:300]` on a string: the first 300 code points. -/
def takeChars (n : Nat) (s : String) : String :=
  String.mk (s.toList.take n)

/-- Is the main post of a raw line kept? `if raw_obj.get('body'):` (body
truthy) and, after cleaning, `if clean_tokens:` (tokens nonempty).
`clean` stands for `clean_text_logic`, whose spaCy lemmatisation is outside
the embedded code, so it is a parameter throughout. -/
def keepSubmission (clean : String → List String) (raw : PostObj) : Bool :=
  raw.body != "" && !(clean raw.body).isEmpty

/-- Is a comment of a raw line kept? `if not comment.get('body'): continue`,
then the exclusion-list test, then `if clean_tokens:`. -/
def keepComment (clean : String → List String) (c : CommentObj) : Bool :=
  c.body != "" && !(EXCLUDED_AUTHORS.contains c.author) &&
    !(clean c.body).isEmpty

/-- The submission row `process_single_file` appends for a kept main post. -/
def mkSubRecord (clean : String → List String) (subName : String)
    (raw : PostObj) : ProcRecord :=
  { id := raw.id, type := "submission", subreddit := subName,
    author := "OP", score := 0, original_text := raw.body,
    full_text_length := raw.body.length,
    processed_tokens := joinTokens (clean raw.body) }

/-- The comment row `process_single_file` appends for a kept comment: it
carries the parent item's id as its `id`, and the comment's own author and
score; its text is truncated to 300 characters. -/
def mkComRecord (clean : String → List String) (subName : String)
    (parentId : String) (c : CommentObj) : ProcRecord :=
  { id := parentId, type := "comment", subreddit := subName,
    author := c.author, score := c.score,
    original_text := takeChars 300 c.body,
    full_text_length := c.body.length,
    processed_tokens := joinTokens (clean c.body) }

/-- Processing of one parsed JSONL line by `process_single_file`: the
submission row if the main post is kept, followed by one comment row per
kept comment (the loop with `continue` is a filter followed by the row
construction). -/
def processRawObj (clean : String → List String) (subName : String)
    (raw : PostObj) : List ProcRecord :=
  (if keepSubmission clean raw then [mkSubRecord clean subName raw]
   else []) ++
  (raw.comments.filter (fun c => keepComment clean c)).map
    (fun c => mkComRecord clean subName raw.id c)

/-- `process_single_file` over a whole file: concatenation of the rows of
each parsed line (lines failing to parse are skipped before this point). -/
def process_single_file (clean : String → List String) (subName : String)
    (raws : List PostObj) : List ProcRecord :=
  raws.flatMap (processRawObj clean subName)

/-- Membership in the rows of one line, characterised. -/
theorem mem_processRawObj {clean : String → List String} {subName : String}
    {raw : PostObj} {r : ProcRecord} :
    r ∈ processRawObj clean subName raw ↔
      (keepSubmission clean raw = true ∧ r = mkSubRecord clean subName raw) ∨
      (∃ c ∈ raw.comments, keepComment clean c = true ∧
        r = mkComRecord clean subName raw.id c) := by
  unfold processRawObj
  rw [List.mem_append]
  constructor
  · rintro (hl | hr)
    · left
      by_cases hk : keepSubmission clean raw = true
      · simp [hk] at hl
        exact ⟨hk, hl⟩
      · simp [hk] at hl
    · right
      rw [List.mem_map] at hr
      obtain ⟨c, hc, hrc⟩ := hr
      rw [List.mem_filter] at hc
      exact ⟨c, hc.1, hc.2, hrc.symm⟩
  · rintro (⟨hk, hr⟩ | ⟨c, hc, hkc, hr⟩)
    · left
      simp [hk, hr]
    · right
      rw [List.mem_map]
      exact ⟨c, List.mem_filter.mpr ⟨hc, hkc⟩, hr.symm⟩

/-- The comment rows of one line are exactly the rows whose `type` is
`"comment"`, and they number one per kept comment. -/
theorem processRawObj_comment_count (clean : String → List String)
    (subName : String) (raw : PostObj) :
    ((processRawObj clean subName raw).filter
        (fun r => r.type == "comment")).length =
      (raw.comments.filter (fun c => keepComment clean c)).length := by
  unfold processRawObj
  rw [List.filter_append]
  by_cases hk : keepSubmission clean raw = true
  · simp [hk, mkSubRecord, mkComRecord, List.filter_map,
      Function.comp_def]
  · simp [hk, mkComRecord, List.filter_map, Function.comp_def]

/-- One-line files: `process_single_file` on a single parsed line is the
processing of that line. -/
theorem process_single_file_singleton (clean : String → List String)
    (subName : String) (raw : PostObj) :
    process_single_file clean subName [raw] = processRawObj clean subName raw := by
  simp [process_single_file]

/-- A concrete harvested item with empty body text and one ordinary
comment, used against claims C1. -/
def c1Post : Post :=
  { id := "p1", title := "t", selftext := "", url := "u",
    comments := [{ body := "nice machine", author := "alice", score := 3 }] }

/-- A concrete stand-in for the cleaning function: nonempty text yields one
token. -/
def c1Clean : String → List String :=
  fun s => if s = "" then [] else [s]

/-- C1 counterexample: the item `c1Post` has empty body text, yet a
successful harvest of it persists one record (the item's own line) rather
than none, and the downstream flattening of that output still emits exactly
one record for the item — a comment record — so neither "no submission
record" nor "no comment record" holds of the item's output. -/
theorem c1_counterexample :
    c1Post.selftext = "" ∧
    (harvest_and_expand [Attempt.ok [c1Post]]).file = [processPost c1Post] ∧
    (harvest_and_expand [Attempt.ok [c1Post]]).file.length = 1 ∧
    (process_single_file c1Clean "sub"
        (harvest_and_expand [Attempt.ok [c1Post]]).file).length = 1 ∧
    (process_single_file c1Clean "sub"
        (harvest_and_expand [Attempt.ok [c1Post]]).file).all
      (fun r => r.type == "comment") = true := by
  refine ⟨rfl, by decide, by decide, by decide, by decide⟩

/-- C1 amended: an item with empty body text is still persisted by the
harvester as a full record — emptiness of the body only disables link
extraction from the body, comment links still being scanned — and the
downstream flattening emits no submission record for such an item but
still one comment record per kept comment (nonempty body, author not
excluded, nonempty cleaned tokens). -/
theorem c1_amended :
    ∀ (i t u : String) (cs : List CommentObj)
      (clean : String → List String) (subName : String),
      (harvest_and_expand [Attempt.ok [⟨i, t, "", u, cs⟩]]).file =
        [processPost ⟨i, t, "", u, cs⟩] ∧
      postLinks ⟨i, t, "", u, cs⟩ =
        (cs.take COMMENT_CAP).flatMap
          (fun c => if c.body ≠ "" then link_pattern_findall c.body
            else []) ∧
      (process_single_file clean subName
          [processPost ⟨i, t, "", u, cs⟩]).all
        (fun r => r.type == "comment") = true ∧
      (process_single_file clean subName
          [processPost ⟨i, t, "", u, cs⟩]).length =
        ((cs.take COMMENT_CAP).filter
          (fun c => keepComment clean c)).length := by
  intro i t u cs clean subName
  have hsub : keepSubmission clean (processPost ⟨i, t, "", u, cs⟩) = false := by
    simp [keepSubmission, processPost]
  refine ⟨rfl, by simp [postLinks], ?_, ?_⟩
  · rw [process_single_file_singleton]
    unfold processRawObj
    rw [List.all_eq_true]
    intro r hr
    rw [List.mem_append] at hr
    rcases hr with hl | hr
    · rw [hsub] at hl
      simp at hl
    · rw [List.mem_map] at hr
      obtain ⟨c, hc, hrc⟩ := hr
      simp [← hrc, mkComRecord]
  · rw [process_single_file_singleton]
    unfold processRawObj
    rw [hsub]
    simp [processPost]

/-- A concrete harvested item with nonempty body and one comment, used
against claim C3. -/
def c3Post : Post :=
  { id := "p2", title := "hello", selftext := "body text", url := "u2",
    comments := [{ body := "first", author := "bob", score := 1 }] }

/-- C3 counterexample: harvesting one item that has one comment persists a
single line, and that line is an object with fields `id`, `title`, `body`,
`url` and the comment nested inside its `comments` list — not two flat
records; so persisted records are nested, carry `title` rather than a
`type`/`author`/`score` projection, and the comment is not a separate
record. -/
theorem c3_counterexample :
    (harvest_and_expand [Attempt.ok [c3Post]]).file =
      [{ id := "p2", title := "hello", body := "body text", url := "u2",
         comments := [{ body := "first", author := "bob", score := 1 }] }] ∧
    (harvest_and_expand [Attempt.ok [c3Post]]).file.length = 1 ∧
    (harvest_and_expand [Attempt.ok [c3Post]]).file.map
      (fun r => r.comments.length) = [1] := by
  refine ⟨by decide, by decide, by decide⟩

/-- C3 amended: the harvester persists exactly one newline-delimited record
per fetched item, the item's comments (the first `COMMENT_CAP` in API
order) nested inside that record; the flat one-record-per-item-or-comment
projection exists only in the downstream flattening, where every row
carries the parent item's id as `id`, a `type` that is `"submission"` or
`"comment"`, author `"OP"` with constant score 0 and the raw body for
submissions, and the comment's own author, score and 300-character
truncated body for comments (no `url` field is part of a row). -/
theorem c3_amended :
    (∀ posts : List Post,
      (harvest_and_expand [Attempt.ok posts]).file.length = posts.length) ∧
    (∀ p : Post, (processPost p).comments = p.comments.take COMMENT_CAP) ∧
    (∀ (clean : String → List String) (subName : String) (raw : PostObj),
      (processRawObj clean subName raw).all
        (fun r => r.id == raw.id) = true) ∧
    (∀ (clean : String → List String) (subName : String) (raw : PostObj),
      (processRawObj clean subName raw).all
        (fun r => r.type == "submission" || r.type == "comment") = true) ∧
    (∀ (clean : String → List String) (subName : String) (raw : PostObj),
      (processRawObj clean subName raw).all
        (fun r => r.type != "submission" ||
          (r.author == "OP" && r.score == 0 &&
            r.original_text == raw.body)) = true) ∧
    (∀ (clean : String → List String) (subName : String) (raw : PostObj),
      (processRawObj clean subName raw).all
        (fun r => r.type != "comment" ||
          raw.comments.any (fun c => r.author == c.author &&
            r.score == c.score &&
            r.original_text == takeChars 300 c.body)) = true) := by
  refine ⟨?_, ?_, ?_, ?_, ?_, ?_⟩
  · intro posts
    simp [harvest_and_expand, harvestLoop]
  · intro p
    rfl
  · intro clean subName raw
    rw [List.all_eq_true]
    intro r hr
    rcases mem_processRawObj.mp hr with ⟨_, hr⟩ | ⟨c, _, _, hr⟩ <;>
      simp [hr, mkSubRecord, mkComRecord]
  · intro clean subName raw
    rw [List.all_eq_true]
    intro r hr
    rcases mem_processRawObj.mp hr with ⟨_, hr⟩ | ⟨c, _, _, hr⟩ <;>
      simp [hr, mkSubRecord, mkComRecord]
  · intro clean subName raw
    rw [List.all_eq_true]
    intro r hr
    rcases mem_processRawObj.mp hr with ⟨_, hr⟩ | ⟨c, _, _, hr⟩ <;>
      simp [hr, mkSubRecord, mkComRecord]
  · intro clean subName raw
    rw [List.all_eq_true]
    intro r hr
    rcases mem_processRawObj.mp hr with ⟨_, hr⟩ | ⟨c, hc, _, hr⟩
    · simp [hr, mkSubRecord]
    · simp only [hr, mkComRecord, Bool.or_eq_true, List.any_eq_true]
      refine Or.inr ⟨c, hc, ?_⟩
      simp

/-- C2: per item, the flattened output contains at most `COMMENT_CAP`
comment records, the nested comments persisted for an item are exactly the
first `COMMENT_CAP` top-level comments in API order, every comment record
originates from one of those first `COMMENT_CAP` comments, and no record
of the flattened output — submission (author "OP") or comment — has an
author on the exclusion list. -/
theorem c2_comment_cap_exclusion :
    ∀ (clean : String → List String) (subName : String) (p : Post),
      (processPost p).comments = p.comments.take COMMENT_CAP ∧
      ((process_single_file clean subName [processPost p]).filter
          (fun r => r.type == "comment")).length ≤ COMMENT_CAP ∧
      (process_single_file clean subName [processPost p]).all
        (fun r => !(EXCLUDED_AUTHORS.contains r.author)) = true ∧
      (process_single_file clean subName [processPost p]).all
        (fun r => r.type != "comment" ||
          (p.comments.take COMMENT_CAP).any
            (fun c => r.author == c.author && r.score == c.score)) = true := by
  intro clean subName p
  refine ⟨rfl, ?_, ?_, ?_⟩
  · rw [process_single_file_singleton, processRawObj_comment_count]
    calc ((processPost p).comments.filter
          (fun c => keepComment clean c)).length
        ≤ (processPost p).comments.length := List.length_filter_le _ _
      _ = (p.comments.take COMMENT_CAP).length := rfl
      _ ≤ COMMENT_CAP := by
          rw [List.length_take]
          exact Nat.min_le_left _ _
  · rw [process_single_file_singleton, List.all_eq_true]
    intro r hr
    rcases mem_processRawObj.mp hr with ⟨_, hr⟩ | ⟨c, _, hkc, hr⟩
    · simp [hr, mkSubRecord, EXCLUDED_AUTHORS]
    · simp only [keepComment, Bool.and_eq_true] at hkc
      simp only [hr, mkComRecord]
      simpa using hkc.1.2
  · rw [process_single_file_singleton, List.all_eq_true]
    intro r hr
    rcases mem_processRawObj.mp hr with ⟨_, hr⟩ | ⟨c, hc, _, hr⟩
    · simp [hr, mkSubRecord]
    · simp only [hr, mkComRecord, Bool.or_eq_true, List.any_eq_true]
      refine Or.inr ⟨c, hc, ?_⟩
      simp

/-- Start seed and target count from `spider.py`. -/
def START_SUBREDDIT : String := "GamingLaptops"

/-- `TARGET_SUBREDDIT_COUNT = 20`. -/
def TARGET_SUBREDDIT_COUNT : Nat := 20

/-- The mutable state of `SubredditSpider`: the FIFO frontier `queue`, the
`visited` set (a Python `set`, modelled as a duplicate-free list), the
`approved_subs` list, and a ghost log of every identifier ever appended to
the queue (for stating that nothing is enqueued twice). -/
structure SpiderState where
  queue : List String
  visited : List String
  approved : List String
  enqueuedLog : List String
deriving DecidableEq, Repr

/-- One iteration of the link-pushing loop at the end of
`harvest_and_expand`: normalize the link, skip if already visited,
otherwise add the normalized form to the visited set at insertion time and
append the link (case as found) to the queue. -/
def pushLink (st : SpiderState) (link : String) : SpiderState :=
  if normalizeId link ∈ st.visited then st
  else
    { queue := st.queue ++ [link],
      visited := normalizeId link :: st.visited,
      approved := st.approved,
      enqueuedLog := st.enqueuedLog ++ [link] }

/-- The whole `for link in new_links_found` loop. -/
def pushAll (st : SpiderState) (links : List String) : SpiderState :=
  links.foldl pushLink st

/-- The state built by `SubredditSpider.__init__`: queue holds the seed,
visited holds its lowercase form. -/
def initialState : SpiderState :=
  { queue := [START_SUBREDDIT],
    visited := [normalizeId START_SUBREDDIT],
    approved := [],
    enqueuedLog := [START_SUBREDDIT] }

/-- The frontier invariant: the visited set is duplicate-free, no two
entries of the enqueued log share a normalized form (every identifier is
enqueued at most once), and everything ever enqueued is in the visited
set. -/
def FrontierInv (st : SpiderState) : Prop :=
  st.visited.Nodup ∧ (st.enqueuedLog.map normalizeId).Nodup ∧
    ∀ x ∈ st.enqueuedLog, normalizeId x ∈ st.visited

instance (st : SpiderState) : Decidable (FrontierInv st) := by
  unfold FrontierInv
  infer_instance

/-- `pushLink` preserves the frontier invariant and never removes a
visited entry. -/
theorem pushLink_inv {st : SpiderState} (h : FrontierInv st)
    (link : String) :
    FrontierInv (pushLink st link) ∧
      st.visited ⊆ (pushLink st link).visited := by
  obtain ⟨hnd, hlog, hmem⟩ := h
  unfold pushLink
  by_cases hv : normalizeId link ∈ st.visited
  · rw [if_pos hv]
    exact ⟨⟨hnd, hlog, hmem⟩, fun x hx => hx⟩
  · rw [if_neg hv]
    refine ⟨⟨List.nodup_cons.mpr ⟨hv, hnd⟩, ?_, ?_⟩,
      fun x hx => List.mem_cons_of_mem _ hx⟩
    · rw [List.map_append, List.map_singleton]
      rw [List.nodup_append]
      refine ⟨hlog, List.nodup_singleton _, ?_⟩
      intro a ha hb
      rw [List.mem_singleton] at hb
      subst hb
      rw [List.mem_map] at ha
      obtain ⟨x, hx, hax⟩ := ha
      exact hv (hax ▸ hmem x hx)
    · intro x hx
      rw [List.mem_append, List.mem_singleton] at hx
      rcases hx with hx | hx
      · exact List.mem_cons_of_mem _ (hmem x hx)
      · subst hx
        exact List.mem_cons_self _ _

/-- `pushAll` preserves the frontier invariant and never removes a visited
entry. -/
theorem pushAll_inv (links : List String) :
    ∀ st : SpiderState, FrontierInv st →
      FrontierInv (pushAll st links) ∧
        st.visited ⊆ (pushAll st links).visited := by
  induction links with
  | nil => exact fun st h => ⟨h, fun x hx => hx⟩
  | cons l rest ih =>
    intro st h
    have h1 := pushLink_inv h l
    have h2 := ih (pushLink st l) h1.1
    exact ⟨h2.1, fun x hx => h2.2 (h1.2 hx)⟩

/-- C7: pushing an identifier whose normalized form is already visited is a
no-op; otherwise the push adds the normalized identifier to the visited
set at insertion time and appends the identifier to the queue; pushing
never removes a visited entry (the visited set only grows); and from any
state satisfying the frontier invariant — as the initial state does — any
sequence of pushes preserves it, so the visited set stays duplicate-free
(every identifier in it at most once) and no two entries ever enqueued
share a normalized form (every identifier enqueued at most once). -/
theorem c7_frontier_push :
    (∀ (st : SpiderState) (link : String),
      normalizeId link ∈ st.visited → pushLink st link = st) ∧
    (∀ (st : SpiderState) (link : String),
      normalizeId link ∉ st.visited →
        (pushLink st link).visited = normalizeId link :: st.visited ∧
        (pushLink st link).queue = st.queue ++ [link]) ∧
    (∀ (st : SpiderState) (link : String),
      st.visited ⊆ (pushLink st link).visited) ∧
    (∀ (st : SpiderState) (links : List String), FrontierInv st →
      FrontierInv (pushAll st links) ∧
        st.visited ⊆ (pushAll st links).visited) ∧
    FrontierInv initialState := by
  refine ⟨?_, ?_, ?_, ?_, ?_⟩
  · intro st link h
    unfold pushLink
    rw [if_pos h]
  · intro st link h
    unfold pushLink
    rw [if_neg h]
    exact ⟨rfl, rfl⟩
  · intro st link
    unfold pushLink
    by_cases h : normalizeId link ∈ st.visited
    · rw [if_pos h]
      exact fun x hx => hx
    · rw [if_neg h]
      exact fun x hx => List.mem_cons_of_mem _ hx
  · exact fun st links h => pushAll_inv links st h
  · decide

/-- C7, concrete witness: from the initial state — which satisfies the
invariant — pushing `"FooBar"` and then its case variant `"foobar"`
enqueues only the first (the second push is a no-op on an
invariant-preserved state), and a push of the already-visited seed is a
no-op. -/
theorem c7_frontier_push_witness :
    FrontierInv initialState ∧
    pushLink initialState "GamingLaptops" = initialState ∧
    FrontierInv (pushAll initialState ["FooBar", "foobar"]) ∧
    initialState.visited ⊆
      (pushAll initialState ["FooBar", "foobar"]).visited :=
  ⟨c7_frontier_push.2.2.2.2,
    c7_frontier_push.1 initialState "GamingLaptops" (by decide),
    (c7_frontier_push.2.2.2.1 initialState ["FooBar", "foobar"]
      (by decide)).1,
    (c7_frontier_push.2.2.2.1 initialState ["FooBar", "foobar"]
      (by decide)).2⟩

/-- The explicit ignore list of `SubredditSpider.run`. -/
def IGNORE_LIST : List String :=
  ["gaming", "pcgaming", "techsupport", "buildapc", "pcmasterrace"]

/-- What one driver iteration did: which candidate it validated, which it
harvested, and whether the fixed inter-candidate `time.sleep(2)` ran. -/
structure StepEffects where
  validated : Option String
  harvested : Option String
  slept : Bool
deriving DecidableEq, Repr

/-- One iteration of the `while` loop of `SubredditSpider.run`, with the
network abstracted: `validateO` is the outcome of `validate_relevance`
for a candidate and `linksO` the links its harvest pushes (empty when the
harvest fails before its push loop). Pop the oldest candidate; if its
lowercase form is on the ignore list, `continue` — skipping validation,
harvest, approval and the inter-candidate sleep; otherwise validate, and
on acceptance append to the approved list, harvest (pushing discovered
links), and sleep. -/
def runStep (validateO : String → Bool) (linksO : String → List String)
    (st : SpiderState) : SpiderState × StepEffects :=
  match st.queue with
  | [] => (st, ⟨none, none, false⟩)
  | c :: rest =>
    let st0 : SpiderState :=
      { queue := rest, visited := st.visited, approved := st.approved,
        enqueuedLog := st.enqueuedLog }
    if lowerString c ∈ IGNORE_LIST then (st0, ⟨none, none, false⟩)
    else if validateO c then
      (pushAll
        { queue := st0.queue, visited := st0.visited,
          approved := st0.approved ++ [c],
          enqueuedLog := st0.enqueuedLog } (linksO c),
        ⟨some c, some c, true⟩)
    else (st0, ⟨some c, none, true⟩)

/-- The `while self.queue and len(self.approved_subs) <
TARGET_SUBREDDIT_COUNT` condition, for a general target. -/
def loopCond (target : Nat) (st : SpiderState) : Bool :=
  !st.queue.isEmpty && st.approved.length < target

/-- The driver loop with fuel, returning the final state and the trace of
states observed at each loop-condition check (the final state included). -/
def runLoop (validateO : String → Bool) (linksO : String → List String)
    (target : Nat) : Nat → SpiderState → SpiderState × List SpiderState
  | 0, st => (st, [st])
  | fuel + 1, st =>
    if loopCond target st then
      let res := runLoop validateO linksO target fuel
        (runStep validateO linksO st).1
      (res.1, st :: res.2)
    else (st, [st])

/-- `pushAll` never touches the approved list. -/
theorem pushAll_approved (links : List String) :
    ∀ st : SpiderState, (pushAll st links).approved = st.approved := by
  induction links with
  | nil => exact fun st => rfl
  | cons l rest ih =>
    intro st
    rw [pushAll, List.foldl_cons, ← pushAll]
    rw [ih (pushLink st l)]
    unfold pushLink
    by_cases h : normalizeId l ∈ st.visited
    · rw [if_pos h]
    · rw [if_neg h]

/-- One driver iteration grows the approved list by at most one. -/
theorem runStep_approved_le (validateO : String → Bool)
    (linksO : String → List String) (st : SpiderState) :
    ((runStep validateO linksO st).1).approved.length ≤
      st.approved.length + 1 := by
  unfold runStep
  cases hq : st.queue with
  | nil => exact Nat.le_succ _
  | cons c rest =>
    by_cases hig : lowerString c ∈ IGNORE_LIST
    · simp only [hig, if_pos]
      exact Nat.le_succ _
    · by_cases hv : validateO c = true
      · simp only [hig, if_neg, hv, if_pos, not_false_eq_true]
        rw [pushAll_approved]
        simp
      · simp only [hig, if_neg, hv, not_false_eq_true,
          Bool.false_eq_true]
        exact Nat.le_succ _

/-- C9: along any run of the driver loop, if the approved list starts
within the target then every state observed at a loop-condition check —
including the final one — has at most `target` approved candidates; and
the loop halts immediately (returning its state unchanged, with a
one-entry trace) as soon as the loop condition is false, i.e. as soon as
the frontier queue is empty or the approved count has reached the
target. -/
theorem c9_approved_bound :
    (∀ (validateO : String → Bool) (linksO : String → List String)
      (target fuel : Nat) (st : SpiderState),
      st.approved.length ≤ target →
        ∀ s ∈ (runLoop validateO linksO target fuel st).2,
          s.approved.length ≤ target) ∧
    (∀ (validateO : String → Bool) (linksO : String → List String)
      (target fuel : Nat) (st : SpiderState),
      loopCond target st = false →
        runLoop validateO linksO target fuel st = (st, [st])) := by
  constructor
  · intro validateO linksO target fuel
    induction fuel with
    | zero =>
      intro st h s hs
      rw [runLoop] at hs
      rw [List.mem_singleton] at hs
      exact hs ▸ h
    | succ f ih =>
      intro st h s hs
      by_cases hc : loopCond target st = true
      · rw [runLoop, if_pos hc] at hs
        rw [List.mem_cons] at hs
        rcases hs with hs | hs
        · exact hs ▸ h
        · refine ih (runStep validateO linksO st).1 ?_ s hs
          have hlt : st.approved.length < target := by
            unfold loopCond at hc
            rw [Bool.and_eq_true] at hc
            exact of_decide_eq_true hc.2
          have := runStep_approved_le validateO linksO st
          omega
      · rw [runLoop, if_neg hc] at hs
        rw [List.mem_singleton] at hs
        exact hs ▸ h
  · intro validateO linksO target fuel st h
    cases fuel with
    | zero => rfl
    | succ f =>
      rw [runLoop, if_neg]
      rw [h]
      exact Bool.false_ne_true

/-- C9, concrete witness: a full concrete run from the initial state with
target 1 (accept-everything validator, no discovered links) keeps the
approved count of its final state within the target, and the loop started
on a state with an empty frontier returns it unchanged at once. -/
theorem c9_approved_bound_witness :
    ((runLoop (fun _ => true) (fun _ => []) 1 5 initialState).1).approved.length ≤ 1 ∧
    runLoop (fun _ => true) (fun _ => []) 1 3
        ⟨[], [], [], []⟩ = (⟨[], [], [], []⟩, [⟨[], [], [], []⟩]) :=
  ⟨c9_approved_bound.1 (fun _ => true) (fun _ => []) 1 5 initialState
      (by decide) _ (by decide),
    c9_approved_bound.2 (fun _ => true) (fun _ => []) 1 3
      ⟨[], [], [], []⟩ (by decide)⟩

/-- C10: when the popped candidate's lowercase form is on the explicit
ignore list, the driver iteration only removes it from the queue: the
state is otherwise unchanged — in particular nothing is appended to the
approved list and the visited set is untouched — and the iteration's
effects record no validation, no harvest and no inter-candidate sleep
(the `continue` jumps over `time.sleep(2)`). -/
theorem c10_ignore_skip :
    ∀ (validateO : String → Bool) (linksO : String → List String)
      (c : String) (rest visited approved enqueuedLog : List String),
      lowerString c ∈ IGNORE_LIST →
        runStep validateO linksO ⟨c :: rest, visited, approved, enqueuedLog⟩ =
          (⟨rest, visited, approved, enqueuedLog⟩, ⟨none, none, false⟩) := by
  intro validateO linksO c rest visited approved enqueuedLog h
  simp [runStep, h]

/-- C10, concrete witness: popping "BuildAPC" (an uppercase variant of the
ignored "buildapc") under an accept-everything validator leaves the rest
of the state untouched and performs no validation, harvest or sleep. -/
theorem c10_ignore_skip_witness :
    lowerString "BuildAPC" ∈ IGNORE_LIST ∧
    runStep (fun _ => true) (fun _ => ["X"])
        ⟨["BuildAPC"], ["v"], ["a"], ["l"]⟩ =
      (⟨[], ["v"], ["a"], ["l"]⟩, ⟨none, none, false⟩) :=
  ⟨by decide,
    c10_ignore_skip (fun _ => true) (fun _ => ["X"]) "BuildAPC" [] ["v"]
      ["a"] ["l"] (by decide)⟩
